import Mathlib

/-!
Shallow embedding of the generation-stamped tile scheduler of
fractal-viewer.cpp (diegofino15/fractal-explorer), together with proofs
of the specification claims about it.

The embedding covers: the Tile struct and the two lock-guarded blocks of
computeTileThread (generation recording and the commit attempt), the
pending-tile queue with its duplicate-avoidance policy from
updateTilesParallel, the dispatch loop of main (thread gate, pop,
generation pre-check, detached spawn), and getSpiralIndicesOutward plus
the four directional raster orders.
-/

set_option maxRecDepth 100000

namespace FractalViewer

/-- Stand-in for the C++ long double / float camera values (cx, cy, cz,
maxIterations).  The properties under study only store, pass along and
compare these values for equality, never compute with them, so an
integer stand-in is faithful. -/
abbrev LD := Int

/-- Identity of a pixel buffer (the Color array that each worker
allocates in computeTileThread).  Only the identity of the buffer
matters to the commit protocol, not its contents. -/
abbrev Buf := Nat

/-- The mutable fields of the Tile struct that the commit protocol
touches.  The render textures and the fixed grid coordinates
tileX/tileY are omitted: no claim mentions them.  In the source:
Color *pixels; bool hasComputed = false; int generation = 0; and the
camera values cx, cy, cz stored at commit time. -/
structure Tile where
  pixels : Option Buf
  hasComputed : Bool
  generation : Int
  cx : LD
  cy : LD
  cz : LD
deriving DecidableEq

/-- Tile state at program start: generation = 0, hasComputed = false,
no pixel buffer committed yet. -/
def initTile : Tile :=
  { pixels := none, hasComputed := false, generation := 0, cx := 0, cy := 0, cz := 0 }

/-- The guard (tile.generation <= generation) used by both lock-guarded
blocks of computeTileThread. -/
def commitAccepted (g : Int) (t : Tile) : Bool := decide (t.generation ≤ g)

/-- First lock-guarded block of computeTileThread: before computing, the
worker raises the tile's generation stamp to the work item's generation
if the stamp is not already larger. -/
def tileStart (g : Int) (t : Tile) : Tile :=
  if t.generation ≤ g then { t with generation := g } else t

/-- Second lock-guarded block of computeTileThread: the commit attempt.
If the work item's generation is still at least the tile's stamp, the
freshly computed pixels, the camera values they were computed under and
the generation are stored and hasComputed is set; otherwise the tile is
left untouched. -/
def tileCommit (g : Int) (px : Buf) (c1 c2 c3 : LD) (t : Tile) : Tile :=
  if t.generation ≤ g then
    { pixels := some px, hasComputed := true, generation := g, cx := c1, cy := c2, cz := c3 }
  else t

/-- One acquisition of a tile's mutex by some worker: either the
generation recording at thread start or the commit attempt at thread
end.  Because every access to the tile's mutable fields happens under
the tile's mutex, an execution of the program restricted to one tile is
exactly a sequence of these events. -/
inductive Ev where
  | start (g : Int)
  | commit (g : Int) (px : Buf) (c1 c2 c3 : LD)
deriving DecidableEq

/-- Generation carried by an event. -/
def evGen : Ev → Int
  | .start g => g
  | .commit g _ _ _ _ => g

/-- Tile state together with the specification-level observer
committedGen: the generation of the most recently accepted commit
(0 before any commit, matching the committedGeneration = 0 start state
of the specification).  The observer is updated exactly when the commit
branch of the source is taken; it adds no behaviour. -/
structure CTile where
  tile : Tile
  committedGen : Int
deriving DecidableEq

/-- State of a tile at program start. -/
def initC : CTile := { tile := initTile, committedGen := 0 }

/-- Effect of one event on a tile. -/
def stepEv (s : CTile) : Ev → CTile
  | .start g => { s with tile := tileStart g s.tile }
  | .commit g px c1 c2 c3 =>
    if s.tile.generation ≤ g then
      { tile := tileCommit g px c1 c2 c3 s.tile, committedGen := g }
    else s

/-- Effect of a sequence of events on a tile. -/
def runEv (s : CTile) (tr : List Ev) : CTile := tr.foldl stepEv s

/-- A task specification: the generation of the work item, the buffer
the worker will allocate and the camera values cx, cy, cz it was issued
under. -/
abbrev TaskSpec := Int × Buf × LD × LD × LD

/-- The two lock acquisitions performed by one complete execution of
computeTileThread for one work item: generation recording first, then
the commit attempt. -/
def taskEvs : TaskSpec → List Ev
  | (g, px, c1, c2, c3) => [Ev.start g, Ev.commit g px c1 c2 c3]

/-- tr is an interleaving of the given tasks: it consists exactly of the
events of the tasks, and each task's own two events appear in program
order (recording before commit attempt). -/
def IsInterleaving (tr : List Ev) (ts : List TaskSpec) : Prop :=
  tr.Perm (ts.flatMap taskEvs) ∧ ∀ s ∈ ts, (taskEvs s).Sublist tr

/-- Trace exhibiting that acceptance is not governed by the committed
generation alone: generation 1 commits, then a task of generation 3 is
admitted (recorded) but has not yet committed, then a task of
generation 2 is admitted. -/
def cexTrace : List Ev := [Ev.start 1, Ev.commit 1 11 0 0 0, Ev.start 3, Ev.start 2]

/-- The stale-discard scenario of the specification: task A (generation
1) and task B (generation 2) are admitted in issue order and B commits
first. -/
def staleTraceB : List Ev := [Ev.start 1, Ev.start 2, Ev.commit 2 77 5 6 7]

/-- The committed-generation observer never exceeds the tile's single
generation stamp. -/
def InvC (s : CTile) : Prop := s.committedGen ≤ s.tile.generation

/-- Concrete tasks for the eventual-consistency witness: generations 1
and 2 with distinct buffers. -/
def c3ts : List TaskSpec := [(1, 10, 0, 0, 0), (2, 20, 0, 0, 0)]

/-- A concrete interleaving in which the generation-2 task commits
before the generation-1 task. -/
def c3tr : List Ev :=
  [Ev.start 1, Ev.start 2, Ev.commit 2 20 0 0 0, Ev.commit 1 10 0 0 0]

/-- A PendingTile work item of the source: tile index, camera values
cx, cy, cz, generation and iteration budget. -/
structure PendingTile where
  index : Nat
  cx : LD
  cy : LD
  cz : LD
  generation : Int
  maxIterations : LD
deriving DecidableEq

/-- The queue state owned by the controlling thread: the deque
pendingTiles and the duplicate-membership set tilesScheduled. -/
structure QState where
  pendingTiles : List PendingTile
  tilesScheduled : Finset Nat
deriving DecidableEq

/-- Queue state at program start: both containers empty. -/
def initQ : QState := { pendingTiles := [], tilesScheduled := ∅ }

/-- The erase loop of scheduleTile: scan the deque, erase the first
entry carrying the given tile index, stop. -/
def eraseFirstIndex (i : Nat) : List PendingTile → List PendingTile
  | [] => []
  | p :: rest => if p.index = i then rest else p :: eraseFirstIndex i rest

/-- The scheduleTile lambda of updateTilesParallel: when duplicate
avoidance is on and the tile index is already in the scheduled set, its
pending entry is removed from its current queue position; then the new
item is appended at the tail and its index inserted into the set. -/
def scheduleTile (avoidDuplicates : Bool) (item : PendingTile) (s : QState) : QState :=
  let pend :=
    if avoidDuplicates ∧ item.index ∈ s.tilesScheduled then
      eraseFirstIndex item.index s.pendingTiles
    else s.pendingTiles
  { pendingTiles := pend ++ [item], tilesScheduled := insert item.index s.tilesScheduled }

/-- The queue part of one iteration of the dispatch loop of main: pop
the front item and erase its index from the scheduled set (a no-op on
an empty queue, since the loop is then not entered). -/
def dequeueTile (s : QState) : QState :=
  match s.pendingTiles with
  | [] => s
  | next :: rest =>
    { pendingTiles := rest, tilesScheduled := s.tilesScheduled.erase next.index }

/-- The two operations that mutate the queue; both run on the single
controlling thread. -/
inductive QOp where
  | sched (item : PendingTile)
  | deq
deriving DecidableEq

/-- Effect of one queue operation. -/
def stepQ (avoidDuplicates : Bool) (s : QState) : QOp → QState
  | .sched item => scheduleTile avoidDuplicates item s
  | .deq => dequeueTile s

/-- Effect of a sequence of queue operations. -/
def runQ (avoidDuplicates : Bool) (s : QState) (ops : List QOp) : QState :=
  ops.foldl (stepQ avoidDuplicates) s

/-- Number of pending queue entries carrying tile index i. -/
def pendingCount (i : Nat) (s : QState) : Nat :=
  s.pendingTiles.countP (fun p => decide (p.index = i))

/-- Inductive invariant of the queue under duplicate avoidance: at most
one entry per index, and the scheduled set holds exactly the indices
with a pending entry. -/
def QInv (s : QState) : Prop :=
  ∀ i, pendingCount i s ≤ 1 ∧ (i ∈ s.tilesScheduled ↔ pendingCount i s = 1)

/-- State of the streaming-mode dispatcher of main together with the
worker pool: the queue, the per-tile generation stamps (the only tile
field the dispatch pre-check reads), the number of detached threads
already constructed whose counter increment has not yet executed, the
atomic runningThreads counter, and whether an std::thread constructor
exception has escaped main (which terminates the process, as the source
installs no handler). -/
structure DState where
  pendingTiles : List PendingTile
  tilesScheduled : Finset Nat
  tileGens : List Int
  spawnedNotStarted : Nat
  runningThreads : Nat
  crashed : Bool
deriving DecidableEq

/-- One iteration of the dispatch while loop: it runs only while the
observed counter is below maxThreads and the queue is non-empty; it
pops the front item, erases its index from the scheduled set, and if
the generation pre-check next.generation - tile.generation >= 0 passes,
constructs a detached thread.  spawnOk records whether the std::thread
constructor succeeds; on failure the exception escapes with the item
already popped. -/
def dispatchStep (maxThreads : Nat) (spawnOk : Bool) (s : DState) : DState :=
  if s.crashed then s
  else
    match s.pendingTiles with
    | [] => s
    | next :: rest =>
      if s.runningThreads < maxThreads then
        let s1 := { s with pendingTiles := rest,
                           tilesScheduled := s.tilesScheduled.erase next.index }
        if 0 ≤ next.generation - s.tileGens.getD next.index 0 then
          if spawnOk then { s1 with spawnedNotStarted := s1.spawnedNotStarted + 1 }
          else { s1 with crashed := true }
        else s1
      else s

/-- The runningThreads.fetch_add(1) at the top of computeTileThread,
executed when a previously constructed detached thread begins to run. -/
def startStep (s : DState) : DState :=
  if s.crashed then s
  else if 0 < s.spawnedNotStarted then
    { s with spawnedNotStarted := s.spawnedNotStarted - 1,
             runningThreads := s.runningThreads + 1 }
  else s

/-- The runningThreads.fetch_sub(1) at the end of computeTileThread. -/
def finishStep (s : DState) : DState :=
  if s.crashed then s
  else { s with runningThreads := s.runningThreads - 1 }

/-- The interleaved events of the dispatcher and the workers. -/
inductive DOp where
  | disp (spawnOk : Bool)
  | start
  | finish
deriving DecidableEq

/-- Effect of one dispatcher or worker event. -/
def stepD (maxThreads : Nat) (s : DState) : DOp → DState
  | .disp ok => dispatchStep maxThreads ok s
  | .start => startStep s
  | .finish => finishStep s

/-- Effect of a sequence of dispatcher and worker events. -/
def runD (maxThreads : Nat) (s : DState) (ops : List DOp) : DState :=
  ops.foldl (stepD maxThreads) s

/-- Dispatcher state with two pending tiles whose generation pre-checks
pass, no thread running: the bounded-concurrency counterexample start
state. -/
def d5init : DState :=
  { pendingTiles := [⟨0, 0, 0, 0, 0, 0⟩, ⟨1, 0, 0, 0, 0, 0⟩],
    tilesScheduled := {0, 1}, tileGens := [0, 0],
    spawnedNotStarted := 0, runningThreads := 0, crashed := false }

/-- Dispatcher state with one pending tile whose generation pre-check
passes: the worker-creation-failure start state. -/
def d9init : DState :=
  { pendingTiles := [⟨0, 0, 0, 0, 0, 0⟩],
    tilesScheduled := {0}, tileGens := [0],
    spawnedNotStarted := 0, runningThreads := 0, crashed := false }

/-- The direction vector array dx of getSpiralIndicesOutward, holding
1, 0, -1, 0; the index is reduced mod 4, as the source maintains it. -/
def dxv (d : Nat) : Int :=
  match d % 4 with
  | 0 => 1
  | 1 => 0
  | 2 => -1
  | _ => 0

/-- The direction vector array dy, holding 0, 1, 0, -1. -/
def dyv (d : Nat) : Int :=
  match d % 4 with
  | 0 => 0
  | 1 => 1
  | 2 => 0
  | _ => -1

/-- Walk state of getSpiralIndicesOutward: the emitted tile indices,
the visited 2D array (represented by the list of in-bounds cells set to
true), the current walk coordinates (which may leave the grid) and the
direction. -/
structure SpiralState where
  result : List Nat
  visited : List (Int × Int)
  x : Int
  y : Int
  dir : Nat
deriving DecidableEq

/-- One step of the inner for loop: advance one cell in the current
direction; if the new cell is inside the grid and not visited, append
its index x + y * TILES_X to the result and mark it visited. -/
def spMove (TX TY : Nat) (st : SpiralState) : SpiralState :=
  let x := st.x + dxv st.dir
  let y := st.y + dyv st.dir
  if 0 ≤ x ∧ x < (TX : Int) ∧ 0 ≤ y ∧ y < (TY : Int) ∧ (x, y) ∉ st.visited then
    { result := st.result ++ [(x + y * (TX : Int)).toNat],
      visited := (x, y) :: st.visited, x := x, y := y, dir := st.dir }
  else
    { st with x := x, y := y }

/-- steps consecutive moves in the current direction (the inner for
loop over step). -/
def spRun (TX TY : Nat) : Nat → SpiralState → SpiralState
  | 0, st => st
  | n + 1, st => spRun TX TY n (spMove TX TY st)

/-- direction = (direction + 1) % 4. -/
def spTurn (st : SpiralState) : SpiralState := { st with dir := (st.dir + 1) % 4 }

/-- One iteration of the while loop body: two runs of the current step
count, each followed by a 90 degree turn. -/
def spLayer (TX TY steps : Nat) (st : SpiralState) : SpiralState :=
  spTurn (spRun TX TY steps (spTurn (spRun TX TY steps st)))

/-- n layers with step counts steps, steps + 1, ... (the while loop
with its guard removed). -/
def spLayers (TX TY : Nat) : Nat → Nat → SpiralState → SpiralState
  | 0, _, st => st
  | n + 1, steps, st => spLayers TX TY n (steps + 1) (spLayer TX TY steps st)

/-- The while loop of getSpiralIndicesOutward with explicit fuel: the
body runs while the result holds fewer than TILES_X * TILES_Y indices.
The fuel bounds the number of layers; it is proved below that the
guard has gone false before the fuel runs out, so the fueled loop
agrees with the source's unbounded loop. -/
def spLoop (TX TY : Nat) : Nat → Nat → SpiralState → SpiralState
  | 0, _, st => st
  | fuel + 1, steps, st =>
    if st.result.length < TX * TY then
      spLoop TX TY fuel (steps + 1) (spLayer TX TY steps st)
    else st

/-- Walk state just before the while loop: the center cell
(TILES_X / 2, TILES_Y / 2) is pushed and marked visited; direction is
right. -/
def spInit (TX TY : Nat) : SpiralState :=
  { result := [TX / 2 + TY / 2 * TX],
    visited := [(((TX / 2 : Nat) : Int), ((TY / 2 : Nat) : Int))],
    x := ((TX / 2 : Nat) : Int), y := ((TY / 2 : Nat) : Int), dir := 0 }

/-- Enough layers to cover any grid cell (proved below). -/
def spFuel (TX TY : Nat) : Nat := 2 * (TX + TY) + 4

/-- getSpiralIndicesOutward of the source. -/
def getSpiralIndicesOutward (TX TY : Nat) : List Nat :=
  (spLoop TX TY (spFuel TX TY) 1 (spInit TX TY)).result

/-- Soundness invariant of the spiral walk: the visited cells are
distinct and in bounds, and the result is exactly the visited cells in
visit order, encoded as x + y * TILES_X. -/
def SpInv (TX TY : Nat) (st : SpiralState) : Prop :=
  st.visited.Nodup ∧
  (∀ p ∈ st.visited, 0 ≤ p.1 ∧ p.1 < (TX : Int) ∧ 0 ≤ p.2 ∧ p.2 < (TY : Int)) ∧
  st.result = st.visited.reverse.map (fun p => (p.1 + p.2 * (TX : Int)).toNat)

/-- The in-bounds cells of the grid, as integer pairs. -/
def gridList (TX TY : Nat) : List (Int × Int) :=
  (List.range TX).flatMap
    (fun i => (List.range TY).map (fun j => (((i : Nat) : Int), ((j : Nat) : Int))))

/-- Directional raster order for camera motion toward the top-left:
outer loop over columns i ascending, inner loop over rows j ascending,
scheduling j * TILES_X + i. -/
def orderTL (TX TY : Nat) : List Nat :=
  (List.range TX).flatMap (fun i => (List.range TY).map (fun j => j * TX + i))

/-- Raster for motion toward the bottom-left: i ascending, j
descending. -/
def orderBL (TX TY : Nat) : List Nat :=
  (List.range TX).flatMap (fun i => (List.range TY).reverse.map (fun j => j * TX + i))

/-- Raster for motion toward the top-right: i descending, j
ascending. -/
def orderTR (TX TY : Nat) : List Nat :=
  (List.range TX).reverse.flatMap (fun i => (List.range TY).map (fun j => j * TX + i))

/-- Raster for motion toward the bottom-right: i descending, j
descending. -/
def orderBR (TX TY : Nat) : List Nat :=
  (List.range TX).reverse.flatMap (fun i => (List.range TY).reverse.map (fun j => j * TX + i))

/-- The grid dimensions of the program. -/
def TILES_X : Nat := 16

/-- Vertical tile count. -/
def TILES_Y : Nat := 9

/-- The spiral order precomputed once by the program. -/
def spiralIndicesOutward : List Nat := getSpiralIndicesOutward TILES_X TILES_Y

/-- The order in which updateTilesParallel schedules tile indices in
detached mode for a view change with camera delta (diffX, diffY):
spiral for a pure zoom, otherwise one of the four rasters picked by
the signs of the deltas. -/
def scheduleOrder (diffX diffY : Int) : List Nat :=
  if diffX = 0 ∧ diffY = 0 then spiralIndicesOutward
  else if 0 ≤ diffX then
    if 0 ≤ diffY then orderTL TILES_X TILES_Y else orderBL TILES_X TILES_Y
  else
    if 0 ≤ diffY then orderTR TILES_X TILES_Y else orderBR TILES_X TILES_Y

/-- Chebyshev distance of a tile index from the starting center tile of
the spiral. -/
def chebFromCenter (TX TY i : Nat) : Nat :=
  max (((i % TX : Nat) : Int) - ((TX / 2 : Nat) : Int)).natAbs
      (((i / TX : Nat) : Int) - ((TY / 2 : Nat) : Int)).natAbs

/-- Boolean check that the Chebyshev distance from the center tile is
non-decreasing along the list. -/
def chebSortedB (TX TY : Nat) : List Nat → Bool
  | [] => true
  | [_] => true
  | a :: b :: rest =>
    decide (chebFromCenter TX TY a ≤ chebFromCenter TX TY b) &&
      chebSortedB TX TY (b :: rest)

end FractalViewer

namespace FractalViewer

theorem tileStart_generation_mono (g : Int) (t : Tile) :
    t.generation ≤ (tileStart g t).generation := by
  unfold tileStart
  split <;> simp_all

theorem tileStart_generation_ge (g : Int) (t : Tile) :
    g ≤ (tileStart g t).generation := by
  unfold tileStart
  split <;> simp_all
  omega

theorem stepEv_generation_mono (s : CTile) (e : Ev) :
    s.tile.generation ≤ (stepEv s e).tile.generation := by
  cases e with
  | start g => exact tileStart_generation_mono g s.tile
  | commit g px c1 c2 c3 =>
    simp only [stepEv]
    split
    · rename_i hg
      simp [tileCommit, hg]
    · exact le_refl _

theorem stepEv_invC (s : CTile) (e : Ev) (h : InvC s) : InvC (stepEv s e) := by
  cases e with
  | start g =>
    unfold InvC at h ⊢
    exact le_trans h (stepEv_generation_mono s (.start g))
  | commit g px c1 c2 c3 =>
    simp only [stepEv]
    split
    · rename_i hg
      simp [InvC, tileCommit, hg]
    · exact h

theorem stepEv_committed_mono (s : CTile) (e : Ev) (h : InvC s) :
    s.committedGen ≤ (stepEv s e).committedGen := by
  cases e with
  | start g => exact le_refl _
  | commit g px c1 c2 c3 =>
    simp only [stepEv]
    split
    · rename_i hg
      unfold InvC at h
      show s.committedGen ≤ g
      omega
    · exact le_refl _

theorem runEv_generation_mono (tr : List Ev) :
    ∀ s : CTile, s.tile.generation ≤ (runEv s tr).tile.generation := by
  induction tr with
  | nil => intro s; exact le_refl _
  | cons e rest ih =>
    intro s
    exact le_trans (stepEv_generation_mono s e) (ih (stepEv s e))

theorem runEv_invC (tr : List Ev) :
    ∀ s : CTile, InvC s → InvC (runEv s tr) := by
  induction tr with
  | nil => intro s h; exact h
  | cons e rest ih =>
    intro s h
    exact ih (stepEv s e) (stepEv_invC s e h)

theorem runEv_committed_mono (tr : List Ev) :
    ∀ s : CTile, InvC s → s.committedGen ≤ (runEv s tr).committedGen := by
  induction tr with
  | nil => intro s _; exact le_refl _
  | cons e rest ih =>
    intro s h
    exact le_trans (stepEv_committed_mono s e h)
      (ih (stepEv s e) (stepEv_invC s e h))

theorem runEv_append (s : CTile) (tr tr2 : List Ev) :
    runEv s (tr ++ tr2) = runEv (runEv s tr) tr2 := by
  unfold runEv
  rw [List.foldl_append]

theorem initC_invC : InvC initC := by
  unfold InvC initC initTile
  simp

/-- Claim C2: over any execution prefix and any continuation of the
process, both the tile's committed generation (the generation of the
most recently accepted commit) and the tile's generation stamp are
non-decreasing: no completion order of compute tasks ever makes either
value smaller than a value it previously held. -/
theorem committedGeneration_monotone (tr tr2 : List Ev) :
    (runEv initC tr).committedGen ≤ (runEv initC (tr ++ tr2)).committedGen ∧
    (runEv initC tr).tile.generation ≤ (runEv initC (tr ++ tr2)).tile.generation := by
  rw [runEv_append]
  exact ⟨runEv_committed_mono tr2 _ (runEv_invC tr initC initC_invC),
    runEv_generation_mono tr2 _⟩

/-- Claim C1, counterexample: after generation 1 has committed (so the
committed generation is 1) and a task of generation 3 has merely been
admitted, a commit attempt of generation 2 satisfies the claim's
acceptance condition (2 ≥ committed generation 1) yet is rejected by the
code and changes nothing. -/
theorem commit_not_iff_committedGeneration :
    (runEv initC cexTrace).committedGen ≤ 2 ∧
    commitAccepted 2 (runEv initC cexTrace).tile = false ∧
    stepEv (runEv initC cexTrace) (Ev.commit 2 22 0 0 0) = runEv initC cexTrace := by
  decide

/-- Claim C1, amended: a commit attempt is accepted iff the incoming
generation is at least the tile's single generation stamp (which is
raised already when a work item is admitted, so it can exceed the
committed generation); acceptance still implies the incoming generation
is at least the committed generation, equal stamps are accepted and
overwrite the tile's result, and a rejected attempt changes nothing. -/
theorem commit_accepted_iff_generation_stamp (tr : List Ev) (g : Int) (px : Buf)
    (c1 c2 c3 : LD) :
    (commitAccepted g (runEv initC tr).tile = true ↔
      (runEv initC tr).tile.generation ≤ g) ∧
    (commitAccepted g (runEv initC tr).tile = true →
      (runEv initC tr).committedGen ≤ g) ∧
    ((runEv initC tr).tile.generation ≤ g →
      stepEv (runEv initC tr) (Ev.commit g px c1 c2 c3) =
        { tile := tileCommit g px c1 c2 c3 (runEv initC tr).tile, committedGen := g } ∧
      (stepEv (runEv initC tr) (Ev.commit g px c1 c2 c3)).tile.pixels = some px ∧
      (stepEv (runEv initC tr) (Ev.commit g px c1 c2 c3)).tile.generation = g ∧
      (stepEv (runEv initC tr) (Ev.commit g px c1 c2 c3)).committedGen = g) ∧
    (¬ (runEv initC tr).tile.generation ≤ g →
      stepEv (runEv initC tr) (Ev.commit g px c1 c2 c3) = runEv initC tr) := by
  refine ⟨?_, ?_, ?_, ?_⟩
  · unfold commitAccepted
    simp
  · intro hacc
    unfold commitAccepted at hacc
    simp at hacc
    exact le_trans (runEv_invC tr initC initC_invC) hacc
  · intro hle
    unfold stepEv tileCommit
    simp [hle]
  · intro hnot
    unfold stepEv
    simp [hnot]

/-- Claim C1 amended, instantiated at a concrete trace and commit
attempt. -/
theorem commit_accepted_iff_generation_stamp_witness :
    (commitAccepted 2 (runEv initC cexTrace).tile = true ↔
      (runEv initC cexTrace).tile.generation ≤ 2) ∧
    (commitAccepted 2 (runEv initC cexTrace).tile = true →
      (runEv initC cexTrace).committedGen ≤ 2) ∧
    ((runEv initC cexTrace).tile.generation ≤ 2 →
      stepEv (runEv initC cexTrace) (Ev.commit 2 22 0 0 0) =
        { tile := tileCommit 2 22 0 0 0 (runEv initC cexTrace).tile, committedGen := 2 } ∧
      (stepEv (runEv initC cexTrace) (Ev.commit 2 22 0 0 0)).tile.pixels = some 22 ∧
      (stepEv (runEv initC cexTrace) (Ev.commit 2 22 0 0 0)).tile.generation = 2 ∧
      (stepEv (runEv initC cexTrace) (Ev.commit 2 22 0 0 0)).committedGen = 2) ∧
    (¬ (runEv initC cexTrace).tile.generation ≤ 2 →
      stepEv (runEv initC cexTrace) (Ev.commit 2 22 0 0 0) = runEv initC cexTrace) :=
  commit_accepted_iff_generation_stamp cexTrace 2 22 0 0 0

/-- Claim C4: in the stale-discard scenario (tile starts at committed
generation 0, task A of generation 1 and task B of generation 2 are
admitted, B commits first), A's later commit attempt is rejected and
every tile field - pixels, generation stamp, committed generation,
hasComputed and the stored camera values - remains exactly what B
committed. -/
theorem stale_discard_scenario :
    (runEv initC staleTraceB).committedGen = 2 ∧
    (runEv initC staleTraceB).tile =
      { pixels := some 77, hasComputed := true, generation := 2, cx := 5, cy := 6, cz := 7 } ∧
    commitAccepted 1 (runEv initC staleTraceB).tile = false ∧
    stepEv (runEv initC staleTraceB) (Ev.commit 1 88 8 9 10) = runEv initC staleTraceB := by
  decide

/-- Claim C10: the tile holds a single generation field serving both as
highest-requested and committed stamp; once a task of generation G has
merely been admitted (its recording event executed), the stamp is at
least G forever after, and every commit attempt with a generation
strictly below G is rejected and changes nothing, even though no result
of generation G need have committed. -/
theorem admitted_generation_gates_commits (tr0 tr1 : List Ev) (G g : Int)
    (px : Buf) (c1 c2 c3 : LD) (hlt : g < G) :
    G ≤ (runEv initC (tr0 ++ Ev.start G :: tr1)).tile.generation ∧
    commitAccepted g (runEv initC (tr0 ++ Ev.start G :: tr1)).tile = false ∧
    stepEv (runEv initC (tr0 ++ Ev.start G :: tr1)) (Ev.commit g px c1 c2 c3) =
      runEv initC (tr0 ++ Ev.start G :: tr1) := by
  have hG : G ≤ (runEv initC (tr0 ++ Ev.start G :: tr1)).tile.generation := by
    rw [runEv_append]
    show G ≤ (runEv _ (Ev.start G :: tr1)).tile.generation
    have h1 : G ≤ (stepEv (runEv initC tr0) (Ev.start G)).tile.generation :=
      tileStart_generation_ge G _
    exact le_trans h1 (runEv_generation_mono tr1 _)
  have hrej : ¬ (runEv initC (tr0 ++ Ev.start G :: tr1)).tile.generation ≤ g := by omega
  refine ⟨hG, ?_, ?_⟩
  · unfold commitAccepted
    simp [hrej]
  · unfold stepEv
    simp [hrej]

/-- Claim C10, instantiated: with an admitted generation 5 and a commit
attempt of generation 3 the attempt is rejected. -/
theorem admitted_generation_gates_commits_witness :
    5 ≤ (runEv initC ([] ++ Ev.start 5 :: [])).tile.generation ∧
    commitAccepted 3 (runEv initC ([] ++ Ev.start 5 :: [])).tile = false ∧
    stepEv (runEv initC ([] ++ Ev.start 5 :: [])) (Ev.commit 3 9 0 0 0) =
      runEv initC ([] ++ Ev.start 5 :: []) :=
  admitted_generation_gates_commits [] [] 5 3 9 0 0 0 (by decide)

theorem stepEv_generation_le (G : Int) (s : CTile) (e : Ev)
    (h1 : evGen e ≤ G) (h2 : s.tile.generation ≤ G) :
    (stepEv s e).tile.generation ≤ G := by
  cases e with
  | start g =>
    simp only [evGen] at h1
    show (tileStart g s.tile).generation ≤ G
    unfold tileStart
    split <;> simp_all
  | commit g px c1 c2 c3 =>
    simp only [evGen] at h1
    simp only [stepEv]
    split
    · rename_i hg
      show (tileCommit g px c1 c2 c3 s.tile).generation ≤ G
      simpa [tileCommit, hg] using h1
    · exact h2

theorem runEv_generation_le (G : Int) :
    ∀ (tr : List Ev) (s : CTile), (∀ e ∈ tr, evGen e ≤ G) →
      s.tile.generation ≤ G → (runEv s tr).tile.generation ≤ G := by
  intro tr
  induction tr with
  | nil => intro s _ h2; exact h2
  | cons e rest ih =>
    intro s hall h2
    exact ih (stepEv s e) (fun e2 hm => hall e2 (List.mem_cons_of_mem e hm))
      (stepEv_generation_le G s e (hall e (List.mem_cons_self e rest)) h2)

theorem stepEv_fixed (G : Int) (s : CTile) (e : Ev) (h1 : evGen e ≤ G)
    (h2 : s.tile.generation = G) (h3 : s.committedGen = G) :
    (stepEv s e).tile.generation = G ∧ (stepEv s e).committedGen = G := by
  cases e with
  | start g =>
    simp only [evGen] at h1
    refine ⟨?_, h3⟩
    show (tileStart g s.tile).generation = G
    unfold tileStart
    split
    · show g = G
      omega
    · exact h2
  | commit g px c1 c2 c3 =>
    simp only [evGen] at h1
    simp only [stepEv]
    split
    · rename_i hg
      have hgG : g = G := by omega
      subst hgG
      refine ⟨?_, rfl⟩
      show (tileCommit g px c1 c2 c3 s.tile).generation = g
      simp [tileCommit, hg]
    · exact ⟨h2, h3⟩

theorem runEv_fixed (G : Int) :
    ∀ (tr : List Ev) (s : CTile), (∀ e ∈ tr, evGen e ≤ G) →
      s.tile.generation = G → s.committedGen = G →
      (runEv s tr).tile.generation = G ∧ (runEv s tr).committedGen = G := by
  intro tr
  induction tr with
  | nil => intro s _ h2 h3; exact ⟨h2, h3⟩
  | cons e rest ih =>
    intro s hall h2 h3
    have hs := stepEv_fixed G s e (hall e (List.mem_cons_self e rest)) h2 h3
    exact ih (stepEv s e) (fun e2 hm => hall e2 (List.mem_cons_of_mem e hm)) hs.1 hs.2

theorem runEv_commit_wins (G : Int) :
    ∀ (tr : List Ev) (s : CTile), (∀ e ∈ tr, evGen e ≤ G) →
      s.tile.generation ≤ G → InvC s →
      (∃ px c1 c2 c3, Ev.commit G px c1 c2 c3 ∈ tr) →
      (runEv s tr).tile.generation = G ∧ (runEv s tr).committedGen = G := by
  intro tr
  induction tr with
  | nil =>
    intro s _ _ _ hex
    obtain ⟨px, c1, c2, c3, hmem⟩ := hex
    simp at hmem
  | cons e rest ih =>
    intro s hall hle hinv hex
    by_cases hrest : ∃ px c1 c2 c3, Ev.commit G px c1 c2 c3 ∈ rest
    · exact ih (stepEv s e) (fun e2 hm => hall e2 (List.mem_cons_of_mem e hm))
        (stepEv_generation_le G s e (hall e (List.mem_cons_self e rest)) hle)
        (stepEv_invC s e hinv) hrest
    · obtain ⟨px, c1, c2, c3, hmem⟩ := hex
      rcases List.mem_cons.mp hmem with heq | hmemr
      · subst heq
        show (runEv (stepEv s (Ev.commit G px c1 c2 c3)) rest).tile.generation = G ∧
          (runEv (stepEv s (Ev.commit G px c1 c2 c3)) rest).committedGen = G
        have hstep : (stepEv s (Ev.commit G px c1 c2 c3)).tile.generation = G ∧
            (stepEv s (Ev.commit G px c1 c2 c3)).committedGen = G := by
          simp only [stepEv]
          split
          · rename_i hg
            refine ⟨?_, rfl⟩
            show (tileCommit G px c1 c2 c3 s.tile).generation = G
            simp [tileCommit, hg]
          · rename_i hng
            exact (hng hle).elim
        exact runEv_fixed G rest _ (fun e2 hm => hall e2 (List.mem_cons_of_mem _ hm))
          hstep.1 hstep.2
      · exact absurd ⟨px, c1, c2, c3, hmemr⟩ hrest

theorem getLast?_mem_self {α : Type} :
    ∀ (l : List α) (a : α), l.getLast? = some a → a ∈ l := by
  intro l
  induction l with
  | nil => intro a h; simp at h
  | cons x xs ih =>
    intro a h
    cases xs with
    | nil =>
      simp at h
      simp [h]
    | cons y ys =>
      rw [List.getLast?_cons_cons] at h
      exact List.mem_cons_of_mem x (ih a h)

theorem getLast?_map_comm {α β : Type} (f : α → β) :
    ∀ (l : List α) (a : α), l.getLast? = some a → (l.map f).getLast? = some (f a) := by
  intro l
  induction l with
  | nil => intro a h; simp at h
  | cons x xs ih =>
    intro a h
    cases xs with
    | nil =>
      simp at h
      simp [h]
    | cons y ys =>
      rw [List.getLast?_cons_cons] at h
      have := ih a h
      simpa [List.getLast?_cons_cons] using this

theorem sorted_last_max :
    ∀ (l : List Int), l.Sorted (· < ·) → ∀ (a : Int), l.getLast? = some a →
      ∀ b ∈ l, b ≤ a := by
  intro l
  induction l with
  | nil => intro _ a h; simp at h
  | cons x xs ih =>
    intro hs a hlast b hb
    rcases List.sorted_cons.mp hs with ⟨hx, hxs⟩
    cases xs with
    | nil =>
      simp at hlast
      rcases List.mem_singleton.mp hb with rfl
      omega
    | cons y ys =>
      rw [List.getLast?_cons_cons] at hlast
      have hamem : a ∈ y :: ys := getLast?_mem_self _ a hlast
      rcases List.mem_cons.mp hb with rfl | hbmem
      · exact le_of_lt (hx a hamem)
      · exact ih hxs a hlast b hbmem

/-- Claim C3: for any single tile and any list of tasks carrying
strictly increasing, validly issued generations, any interleaving of
the tasks' lock acquisitions (each task recording before committing)
ends with the tile's committed generation and generation stamp equal to
the last (largest) generation: the final state is independent of the
completion order. -/
theorem eventual_consistency (ts : List TaskSpec) (tr : List Ev) (tN : TaskSpec)
    (hsorted : (ts.map fun t => t.1).Sorted (· < ·))
    (hpos : ∀ t ∈ ts, (0:Int) ≤ t.1)
    (hlast : ts.getLast? = some tN)
    (hint : IsInterleaving tr ts) :
    (runEv initC tr).committedGen = tN.1 ∧
    (runEv initC tr).tile.generation = tN.1 := by
  obtain ⟨hperm, hsub⟩ := hint
  have htN : tN ∈ ts := getLast?_mem_self ts tN hlast
  have hmax : ∀ b ∈ ts.map (fun t => t.1), b ≤ tN.1 :=
    sorted_last_max _ hsorted tN.1 (getLast?_map_comm _ ts tN hlast)
  have hall : ∀ e ∈ tr, evGen e ≤ tN.1 := by
    intro e he
    have hj : e ∈ ts.flatMap taskEvs := hperm.mem_iff.mp he
    obtain ⟨t, ht, het⟩ := List.mem_flatMap.mp hj
    have hg : evGen e = t.1 := by
      obtain ⟨g, px, c1, c2, c3⟩ := t
      simp [taskEvs] at het
      rcases het with h | h <;> simp [h, evGen]
    rw [hg]
    exact hmax t.1 (List.mem_map_of_mem _ ht)
  have hcommit : ∃ px c1 c2 c3, Ev.commit tN.1 px c1 c2 c3 ∈ tr := by
    obtain ⟨g, px, c1, c2, c3⟩ := tN
    refine ⟨px, c1, c2, c3, ?_⟩
    have hsubN := hsub _ htN
    exact hsubN.subset (by simp [taskEvs])
  have h0 : (initC).tile.generation ≤ tN.1 := hpos tN htN
  have hw := runEv_commit_wins tN.1 tr initC hall h0 initC_invC hcommit
  exact ⟨hw.2, hw.1⟩

/-- Claim C3, instantiated: two tasks of generations 1 and 2 where the
generation-2 task commits first still leave the committed generation at
2. -/
theorem eventual_consistency_witness :
    (runEv initC c3tr).committedGen = 2 ∧
    (runEv initC c3tr).tile.generation = 2 :=
  eventual_consistency c3ts c3tr (2, 20, 0, 0, 0) (by decide) (by decide)
    (by decide) ⟨by decide, by decide⟩

theorem countP_eraseFirstIndex_self (i : Nat) :
    ∀ l : List PendingTile,
      (eraseFirstIndex i l).countP (fun p => decide (p.index = i)) =
        l.countP (fun p => decide (p.index = i)) - 1 := by
  intro l
  induction l with
  | nil => simp [eraseFirstIndex]
  | cons p rest ih =>
    by_cases hp : p.index = i
    · simp [eraseFirstIndex, hp, List.countP_cons]
    · simp [eraseFirstIndex, hp, List.countP_cons, ih]

theorem countP_eraseFirstIndex_ne (i j : Nat) (hne : j ≠ i) :
    ∀ l : List PendingTile,
      (eraseFirstIndex i l).countP (fun p => decide (p.index = j)) =
        l.countP (fun p => decide (p.index = j)) := by
  intro l
  induction l with
  | nil => simp [eraseFirstIndex]
  | cons p rest ih =>
    have hij : ¬ i = j := fun hh => hne hh.symm
    by_cases hp : p.index = i
    · have hpj : ¬ p.index = j := by omega
      simp [eraseFirstIndex, hp, List.countP_cons, hpj, hij]
    · simp [eraseFirstIndex, hp, List.countP_cons, ih]

theorem countP_single_index (item : PendingTile) (j : Nat) :
    List.countP (fun p => decide (p.index = j)) [item] =
      if item.index = j then 1 else 0 := by
  by_cases hj : item.index = j <;> simp [List.countP_cons, hj]

theorem countP_cons_index (p : PendingTile) (l : List PendingTile) (j : Nat) :
    List.countP (fun q => decide (q.index = j)) (p :: l) =
      List.countP (fun q => decide (q.index = j)) l + if p.index = j then 1 else 0 := by
  by_cases hj : p.index = j <;> simp [List.countP_cons, hj]

theorem scheduleTile_pendingTiles (b : Bool) (item : PendingTile) (s : QState) :
    (scheduleTile b item s).pendingTiles =
      (if b ∧ item.index ∈ s.tilesScheduled then
        eraseFirstIndex item.index s.pendingTiles
       else s.pendingTiles) ++ [item] := rfl

theorem scheduleTile_tilesScheduled (b : Bool) (item : PendingTile) (s : QState) :
    (scheduleTile b item s).tilesScheduled = insert item.index s.tilesScheduled := rfl

theorem qInv_schedule (item : PendingTile) (s : QState) (h : QInv s) :
    QInv (scheduleTile true item s) := by
  intro i
  obtain ⟨hc, hm⟩ := h i
  obtain ⟨hci, hmi⟩ := h item.index
  unfold pendingCount at hc hm hci hmi ⊢
  rw [scheduleTile_pendingTiles, scheduleTile_tilesScheduled]
  by_cases hmem : item.index ∈ s.tilesScheduled
  · rw [if_pos ⟨rfl, hmem⟩]
    have hself := countP_eraseFirstIndex_self item.index s.pendingTiles
    have hcnt1 : List.countP (fun p => decide (p.index = item.index)) s.pendingTiles = 1 :=
      hmi.mp hmem
    by_cases hi : i = item.index
    · rw [hi]
      have hval : List.countP (fun p => decide (p.index = item.index))
          (eraseFirstIndex item.index s.pendingTiles ++ [item]) = 1 := by
        rw [List.countP_append, countP_single_index, if_pos rfl]
        omega
      rw [hval]
      exact ⟨by omega, by simp⟩
    · have hkeep : List.countP (fun p => decide (p.index = i))
          (eraseFirstIndex item.index s.pendingTiles) =
          List.countP (fun p => decide (p.index = i)) s.pendingTiles :=
        countP_eraseFirstIndex_ne item.index i hi s.pendingTiles
      have hval : List.countP (fun p => decide (p.index = i))
          (eraseFirstIndex item.index s.pendingTiles ++ [item]) =
          List.countP (fun p => decide (p.index = i)) s.pendingTiles := by
        rw [List.countP_append, countP_single_index,
          if_neg (fun hh => hi hh.symm), hkeep]
        omega
      rw [hval, Finset.mem_insert]
      refine ⟨hc, ?_⟩
      constructor
      · intro hor
        rcases hor with h1 | h1
        · exact absurd h1 hi
        · exact hm.mp h1
      · intro hcc
        exact Or.inr (hm.mpr hcc)
  · rw [if_neg (fun hand => hmem hand.2)]
    have hcnt0 : List.countP (fun p => decide (p.index = item.index)) s.pendingTiles = 0 := by
      have hnot : ¬ List.countP (fun p => decide (p.index = item.index)) s.pendingTiles = 1 :=
        fun hh => hmem (hmi.mpr hh)
      omega
    by_cases hi : i = item.index
    · rw [hi]
      have hval : List.countP (fun p => decide (p.index = item.index))
          (s.pendingTiles ++ [item]) = 1 := by
        rw [List.countP_append, countP_single_index, if_pos rfl]
        omega
      rw [hval]
      exact ⟨by omega, by simp⟩
    · have hval : List.countP (fun p => decide (p.index = i))
          (s.pendingTiles ++ [item]) =
          List.countP (fun p => decide (p.index = i)) s.pendingTiles := by
        rw [List.countP_append, countP_single_index,
          if_neg (fun hh => hi hh.symm)]
        omega
      rw [hval, Finset.mem_insert]
      refine ⟨hc, ?_⟩
      constructor
      · intro hor
        rcases hor with h1 | h1
        · exact absurd h1 hi
        · exact hm.mp h1
      · intro hcc
        exact Or.inr (hm.mpr hcc)

theorem qInv_dequeue (s : QState) (h : QInv s) : QInv (dequeueTile s) := by
  unfold dequeueTile
  cases hp : s.pendingTiles with
  | nil => exact h
  | cons next rest =>
    intro i
    obtain ⟨hc, hm⟩ := h i
    unfold pendingCount at hc hm
    rw [hp, countP_cons_index] at hc hm
    by_cases hi : i = next.index
    · rw [if_pos (by omega : next.index = i)] at hc hm
      constructor
      · show List.countP (fun p => decide (p.index = i)) rest ≤ 1
        omega
      · show i ∈ s.tilesScheduled.erase next.index ↔
          List.countP (fun p => decide (p.index = i)) rest = 1
        constructor
        · intro hh
          exact absurd hi (Finset.mem_erase.mp hh).1
        · intro hcc
          exact absurd hcc (by omega)
    · rw [if_neg (by omega : ¬ next.index = i), Nat.add_zero] at hc hm
      constructor
      · show List.countP (fun p => decide (p.index = i)) rest ≤ 1
        exact hc
      · show i ∈ s.tilesScheduled.erase next.index ↔
          List.countP (fun p => decide (p.index = i)) rest = 1
        rw [Finset.mem_erase]
        constructor
        · intro hh
          exact hm.mp hh.2
        · intro hh
          exact ⟨hi, hm.mpr hh⟩

theorem qInv_run (ops : List QOp) :
    ∀ s : QState, QInv s → QInv (runQ true s ops) := by
  induction ops with
  | nil => intro s h; exact h
  | cons op rest ih =>
    intro s h
    cases op with
    | sched item => exact ih (scheduleTile true item s) (qInv_schedule item s h)
    | deq => exact ih (dequeueTile s) (qInv_dequeue s h)

theorem qInv_init : QInv initQ := by
  intro i
  unfold initQ pendingCount
  simp

/-- Claim C6: with duplicate avoidance enabled, after any sequence of
schedule and dequeue operations starting from the empty queue, the
pending queue holds at most one entry per tile index; since every
reachable queue state is such a state, the bound holds at every point
in time. -/
theorem dedup_at_most_one_pending (ops : List QOp) (i : Nat) :
    pendingCount i (runQ true initQ ops) ≤ 1 :=
  (qInv_run ops initQ qInv_init i).1

/-- Claim C6, instantiated: scheduling tile 3 twice (around an
unrelated schedule of tile 1) leaves a single pending entry for
tile 3. -/
theorem dedup_at_most_one_pending_witness :
    pendingCount 3 (runQ true initQ
      [QOp.sched ⟨3, 0, 0, 0, 0, 0⟩, QOp.sched ⟨1, 0, 0, 0, 0, 0⟩,
       QOp.sched ⟨3, 0, 0, 0, 1, 0⟩]) ≤ 1 :=
  dedup_at_most_one_pending
    [QOp.sched ⟨3, 0, 0, 0, 0, 0⟩, QOp.sched ⟨1, 0, 0, 0, 0, 0⟩,
     QOp.sched ⟨3, 0, 0, 0, 1, 0⟩] 3

/-- Claim C5 fails on the code: with maxThreads = 1 and two pending
tiles, the dispatcher passes the counter gate twice before either
detached worker has executed its increment, after which both workers
run: the observed running-task count reaches 2, exceeding the
configured maximum.  The gate itself is as the claim describes, but the
increment happens inside the worker after dispatch, so the bound does
not hold. -/
theorem bounded_concurrency_violated :
    (runD 1 d5init [DOp.disp true, DOp.disp true, DOp.start, DOp.start]).runningThreads
        = 2 ∧
    (runD 1 d5init [DOp.disp true, DOp.disp true, DOp.start, DOp.start]).crashed
        = false ∧
    ¬ (runD 1 d5init
        [DOp.disp true, DOp.disp true, DOp.start, DOp.start]).runningThreads ≤ 1 := by
  decide

/-- Claim C9, counterexample: when the std::thread constructor fails on
the only pending item, the process state at the escaping exception has
an empty pending queue - the item was popped before the construction
attempt - and the dispatcher has crashed, so the item is neither
retained for a later cycle nor the crash avoided. -/
theorem spawn_failure_loses_item :
    (runD 1 d9init [DOp.disp false]).crashed = true ∧
    (runD 1 d9init [DOp.disp false]).pendingTiles = [] := by
  decide

/-- Claim C9, amended: the dispatcher removes the work item from the
pending queue (and its index from the scheduled set) before attempting
to construct the worker thread, so on construction failure the item is
no longer in the queue and the constructor's exception escapes,
terminating the process. -/
theorem spawn_failure_pops_first (maxThreads : Nat) (s : DState)
    (next : PendingTile) (rest : List PendingTile)
    (hnc : s.crashed = false) (hp : s.pendingTiles = next :: rest)
    (hrun : s.runningThreads < maxThreads)
    (hgen : 0 ≤ next.generation - s.tileGens.getD next.index 0) :
    dispatchStep maxThreads false s =
      { s with pendingTiles := rest,
               tilesScheduled := s.tilesScheduled.erase next.index,
               crashed := true } := by
  unfold dispatchStep
  rw [hnc, hp]
  have hgen2 : s.tileGens[next.index]?.getD 0 ≤ next.generation := by
    rw [← List.getD_eq_getElem?_getD]
    omega
  simp [hrun, hgen2]

/-- Claim C7: for a zoom-only event (diffX = 0 and diffY = 0) the
schedule order is the precomputed spiral-outward order; on the
program's 16 x 9 grid it begins at the starting center tile (index
72 = 8 + 4 * 16) and its Chebyshev distance from that tile is
non-decreasing along the whole sequence; on a 3 x 3 grid the center
tile (index 4) comes first and the distances are non-decreasing, so no
edge or corner tile precedes the center. -/
theorem zoom_only_spiral_order :
    scheduleOrder 0 0 = getSpiralIndicesOutward TILES_X TILES_Y ∧
    (scheduleOrder 0 0).head? = some 72 ∧
    chebSortedB TILES_X TILES_Y (scheduleOrder 0 0) = true ∧
    (getSpiralIndicesOutward 3 3).head? = some 4 ∧
    chebSortedB 3 3 (getSpiralIndicesOutward 3 3) = true := by
  refine ⟨rfl, ?_, ?_, ?_, ?_⟩ <;> decide

theorem spMove_pos (TX TY : Nat) (st : SpiralState) :
    (spMove TX TY st).x = st.x + dxv st.dir ∧
    (spMove TX TY st).y = st.y + dyv st.dir ∧
    (spMove TX TY st).dir = st.dir := by
  unfold spMove
  dsimp only
  split <;> exact ⟨rfl, rfl, rfl⟩

theorem spMove_visited_mono (TX TY : Nat) (st : SpiralState) :
    st.visited ⊆ (spMove TX TY st).visited := by
  intro p hp
  unfold spMove
  dsimp only
  split
  · exact List.mem_cons_of_mem _ hp
  · exact hp

theorem spMove_lands (TX TY : Nat) (st : SpiralState)
    (hb1 : 0 ≤ st.x + dxv st.dir) (hb2 : st.x + dxv st.dir < (TX : Int))
    (hb3 : 0 ≤ st.y + dyv st.dir) (hb4 : st.y + dyv st.dir < (TY : Int)) :
    (st.x + dxv st.dir, st.y + dyv st.dir) ∈ (spMove TX TY st).visited := by
  unfold spMove
  dsimp only
  split
  · exact List.mem_cons_self _ _
  · rename_i hcond
    by_cases hmem : (st.x + dxv st.dir, st.y + dyv st.dir) ∈ st.visited
    · exact hmem
    · exact absurd ⟨hb1, hb2, hb3, hb4, hmem⟩ hcond

theorem spRun_pos (TX TY : Nat) :
    ∀ (n : Nat) (st : SpiralState),
      (spRun TX TY n st).x = st.x + (n : Int) * dxv st.dir ∧
      (spRun TX TY n st).y = st.y + (n : Int) * dyv st.dir ∧
      (spRun TX TY n st).dir = st.dir := by
  intro n
  induction n with
  | zero =>
    intro st
    refine ⟨?_, ?_, rfl⟩ <;> simp [spRun]
  | succ n ih =>
    intro n2
    have hm := spMove_pos TX TY n2
    have hr := ih (spMove TX TY n2)
    refine ⟨?_, ?_, ?_⟩
    · show (spRun TX TY n (spMove TX TY n2)).x = _
      rw [hr.1, hm.1, hm.2.2]
      push_cast
      ring
    · show (spRun TX TY n (spMove TX TY n2)).y = _
      rw [hr.2.1, hm.2.1, hm.2.2]
      push_cast
      ring
    · show (spRun TX TY n (spMove TX TY n2)).dir = _
      rw [hr.2.2, hm.2.2]

theorem spRun_visited_mono (TX TY : Nat) :
    ∀ (n : Nat) (st : SpiralState), st.visited ⊆ (spRun TX TY n st).visited := by
  intro n
  induction n with
  | zero => intro st p hp; exact hp
  | succ n ih =>
    intro st p hp
    exact ih (spMove TX TY st) (spMove_visited_mono TX TY st hp)

theorem spRun_covers (TX TY : Nat) :
    ∀ (n : Nat) (st : SpiralState) (j : Nat), j < n →
      0 ≤ st.x + ((j : Int) + 1) * dxv st.dir →
      st.x + ((j : Int) + 1) * dxv st.dir < (TX : Int) →
      0 ≤ st.y + ((j : Int) + 1) * dyv st.dir →
      st.y + ((j : Int) + 1) * dyv st.dir < (TY : Int) →
      (st.x + ((j : Int) + 1) * dxv st.dir, st.y + ((j : Int) + 1) * dyv st.dir)
        ∈ (spRun TX TY n st).visited := by
  intro n
  induction n with
  | zero => intro st j hj _ _ _ _; omega
  | succ n ih =>
    intro st j hj hb1 hb2 hb3 hb4
    have hm := spMove_pos TX TY st
    cases j with
    | zero =>
      have heqx : st.x + (((0 : Nat) : Int) + 1) * dxv st.dir = st.x + dxv st.dir := by
        push_cast
        ring
      have heqy : st.y + (((0 : Nat) : Int) + 1) * dyv st.dir = st.y + dyv st.dir := by
        push_cast
        ring
      rw [heqx] at hb1 hb2
      rw [heqy] at hb3 hb4
      have hland := spMove_lands TX TY st hb1 hb2 hb3 hb4
      have hmem := spRun_visited_mono TX TY n (spMove TX TY st) hland
      show _ ∈ (spRun TX TY n (spMove TX TY st)).visited
      rw [heqx, heqy]
      exact hmem
    | succ jp =>
      have hcx : (spMove TX TY st).x + ((jp : Int) + 1) * dxv (spMove TX TY st).dir
          = st.x + (((jp + 1 : Nat) : Int) + 1) * dxv st.dir := by
        rw [hm.1, hm.2.2]
        push_cast
        ring
      have hcy : (spMove TX TY st).y + ((jp : Int) + 1) * dyv (spMove TX TY st).dir
          = st.y + (((jp + 1 : Nat) : Int) + 1) * dyv st.dir := by
        rw [hm.2.1, hm.2.2]
        push_cast
        ring
      have hmem := ih (spMove TX TY st) jp (by omega)
        (by rw [hcx]; exact hb1) (by rw [hcx]; exact hb2)
        (by rw [hcy]; exact hb3) (by rw [hcy]; exact hb4)
      show _ ∈ (spRun TX TY n (spMove TX TY st)).visited
      have hpair : (st.x + (((jp + 1 : Nat) : Int) + 1) * dxv st.dir,
          st.y + (((jp + 1 : Nat) : Int) + 1) * dyv st.dir)
          = ((spMove TX TY st).x + ((jp : Int) + 1) * dxv (spMove TX TY st).dir,
             (spMove TX TY st).y + ((jp : Int) + 1) * dyv (spMove TX TY st).dir) := by
        rw [hcx, hcy]
      rw [hpair]
      exact hmem

/-- Claim C9 amended, instantiated at the concrete one-item state. -/
theorem spawn_failure_pops_first_witness :
    dispatchStep 1 false d9init =
      { d9init with pendingTiles := [],
                    tilesScheduled := d9init.tilesScheduled.erase 0,
                    crashed := true } :=
  spawn_failure_pops_first 1 d9init ⟨0, 0, 0, 0, 0, 0⟩ [] (by decide) (by decide)
    (by decide) (by decide)

theorem spTurn_x (st : SpiralState) : (spTurn st).x = st.x := rfl

theorem spTurn_y (st : SpiralState) : (spTurn st).y = st.y := rfl

theorem spTurn_visited (st : SpiralState) : (spTurn st).visited = st.visited := rfl

theorem spTurn_dir (st : SpiralState) : (spTurn st).dir = (st.dir + 1) % 4 := rfl

theorem spLayer_visited_mono (TX TY s : Nat) (st : SpiralState) :
    st.visited ⊆ (spLayer TX TY s st).visited := by
  intro p hp
  show p ∈ (spRun TX TY s (spTurn (spRun TX TY s st))).visited
  apply spRun_visited_mono
  show p ∈ (spRun TX TY s st).visited
  exact spRun_visited_mono TX TY s st hp

theorem spRun_to_spLayer (TX TY s : Nat) (st : SpiralState) :
    (spRun TX TY s st).visited ⊆ (spLayer TX TY s st).visited := by
  intro p hp
  show p ∈ (spRun TX TY s (spTurn (spRun TX TY s st))).visited
  exact spRun_visited_mono TX TY s _ hp

theorem spLayer_right (TX TY s : Nat) (st : SpiralState) (hdir : st.dir = 0) :
    (spLayer TX TY s st).x = st.x + (s : Int) ∧
    (spLayer TX TY s st).y = st.y + (s : Int) ∧
    (spLayer TX TY s st).dir = 2 ∧
    (∀ px py : Int, st.x + 1 ≤ px → px ≤ st.x + (s : Int) → py = st.y →
      0 ≤ px → px < (TX : Int) → 0 ≤ py → py < (TY : Int) →
      (px, py) ∈ (spLayer TX TY s st).visited) ∧
    (∀ px py : Int, px = st.x + (s : Int) → st.y + 1 ≤ py → py ≤ st.y + (s : Int) →
      0 ≤ px → px < (TX : Int) → 0 ≤ py → py < (TY : Int) →
      (px, py) ∈ (spLayer TX TY s st).visited) := by
  have hdx0 : dxv st.dir = 1 := by rw [hdir]; rfl
  have hdy0 : dyv st.dir = 0 := by rw [hdir]; rfl
  have hA := spRun_pos TX TY s st
  have hAx : (spRun TX TY s st).x = st.x + (s : Int) := by
    rw [hA.1, hdx0]; ring
  have hAy : (spRun TX TY s st).y = st.y := by
    rw [hA.2.1, hdy0]; ring
  have hAd : (spRun TX TY s st).dir = 0 := by rw [hA.2.2, hdir]
  have hA1d : (spTurn (spRun TX TY s st)).dir = 1 := by
    rw [spTurn_dir, hAd]
  have hdx1 : dxv (spTurn (spRun TX TY s st)).dir = 0 := by rw [hA1d]; rfl
  have hdy1 : dyv (spTurn (spRun TX TY s st)).dir = 1 := by rw [hA1d]; rfl
  have hB := spRun_pos TX TY s (spTurn (spRun TX TY s st))
  have hBx : (spRun TX TY s (spTurn (spRun TX TY s st))).x = st.x + (s : Int) := by
    rw [hB.1, hdx1, spTurn_x, hAx]; ring
  have hBy : (spRun TX TY s (spTurn (spRun TX TY s st))).y = st.y + (s : Int) := by
    rw [hB.2.1, hdy1, spTurn_y, hAy]; ring
  have hBd : (spRun TX TY s (spTurn (spRun TX TY s st))).dir = 1 := by
    rw [hB.2.2, hA1d]
  refine ⟨?_, ?_, ?_, ?_, ?_⟩
  · show (spRun TX TY s (spTurn (spRun TX TY s st))).x = _
    exact hBx
  · show (spRun TX TY s (spTurn (spRun TX TY s st))).y = _
    exact hBy
  · show ((spRun TX TY s (spTurn (spRun TX TY s st))).dir + 1) % 4 = 2
    rw [hBd]
  · intro px py h1 h2 h3 hb1 hb2 hb3 hb4
    subst h3
    apply spRun_to_spLayer
    show _ ∈ (spRun TX TY s st).visited
    have hj : (((px - st.x - 1).toNat : Int)) = px - st.x - 1 :=
      Int.toNat_of_nonneg (by omega)
    have hcx : st.x + (((px - st.x - 1).toNat : Int) + 1) * dxv st.dir = px := by
      rw [hdx0, hj]; ring
    have hcy : st.y + (((px - st.x - 1).toNat : Int) + 1) * dyv st.dir = st.y := by
      rw [hdy0]; ring
    have hmem := spRun_covers TX TY s st (px - st.x - 1).toNat (by omega)
      (by rw [hcx]; exact hb1) (by rw [hcx]; exact hb2)
      (by rw [hcy]; exact hb3) (by rw [hcy]; exact hb4)
    have hpair : (px, st.y)
        = (st.x + (((px - st.x - 1).toNat : Int) + 1) * dxv st.dir,
           st.y + (((px - st.x - 1).toNat : Int) + 1) * dyv st.dir) := by
      rw [hcx, hcy]
    rw [hpair]
    exact hmem
  · intro px py h1 h2 h3 hb1 hb2 hb3 hb4
    subst h1
    show _ ∈ (spRun TX TY s (spTurn (spRun TX TY s st))).visited
    have hj : (((py - st.y - 1).toNat : Int)) = py - st.y - 1 :=
      Int.toNat_of_nonneg (by omega)
    have hcx : (spTurn (spRun TX TY s st)).x
        + (((py - st.y - 1).toNat : Int) + 1) * dxv (spTurn (spRun TX TY s st)).dir
        = st.x + (s : Int) := by
      rw [hdx1, spTurn_x, hAx]; ring
    have hcy : (spTurn (spRun TX TY s st)).y
        + (((py - st.y - 1).toNat : Int) + 1) * dyv (spTurn (spRun TX TY s st)).dir
        = py := by
      rw [hdy1, spTurn_y, hAy, hj]; ring
    have hmem := spRun_covers TX TY s (spTurn (spRun TX TY s st)) (py - st.y - 1).toNat
      (by omega)
      (by rw [hcx]; exact hb1) (by rw [hcx]; exact hb2)
      (by rw [hcy]; exact hb3) (by rw [hcy]; exact hb4)
    have hpair : (st.x + (s : Int), py)
        = ((spTurn (spRun TX TY s st)).x
            + (((py - st.y - 1).toNat : Int) + 1) * dxv (spTurn (spRun TX TY s st)).dir,
           (spTurn (spRun TX TY s st)).y
            + (((py - st.y - 1).toNat : Int) + 1) * dyv (spTurn (spRun TX TY s st)).dir) := by
      rw [hcx, hcy]
    rw [hpair]
    exact hmem

theorem spLayer_left (TX TY s : Nat) (st : SpiralState) (hdir : st.dir = 2) :
    (spLayer TX TY s st).x = st.x - (s : Int) ∧
    (spLayer TX TY s st).y = st.y - (s : Int) ∧
    (spLayer TX TY s st).dir = 0 ∧
    (∀ px py : Int, st.x - (s : Int) ≤ px → px ≤ st.x - 1 → py = st.y →
      0 ≤ px → px < (TX : Int) → 0 ≤ py → py < (TY : Int) →
      (px, py) ∈ (spLayer TX TY s st).visited) ∧
    (∀ px py : Int, px = st.x - (s : Int) → st.y - (s : Int) ≤ py → py ≤ st.y - 1 →
      0 ≤ px → px < (TX : Int) → 0 ≤ py → py < (TY : Int) →
      (px, py) ∈ (spLayer TX TY s st).visited) := by
  have hdx0 : dxv st.dir = -1 := by rw [hdir]; rfl
  have hdy0 : dyv st.dir = 0 := by rw [hdir]; rfl
  have hA := spRun_pos TX TY s st
  have hAx : (spRun TX TY s st).x = st.x - (s : Int) := by
    rw [hA.1, hdx0]; ring
  have hAy : (spRun TX TY s st).y = st.y := by
    rw [hA.2.1, hdy0]; ring
  have hAd : (spRun TX TY s st).dir = 2 := by rw [hA.2.2, hdir]
  have hA1d : (spTurn (spRun TX TY s st)).dir = 3 := by
    rw [spTurn_dir, hAd]
  have hdx1 : dxv (spTurn (spRun TX TY s st)).dir = 0 := by rw [hA1d]; rfl
  have hdy1 : dyv (spTurn (spRun TX TY s st)).dir = -1 := by rw [hA1d]; rfl
  have hB := spRun_pos TX TY s (spTurn (spRun TX TY s st))
  have hBx : (spRun TX TY s (spTurn (spRun TX TY s st))).x = st.x - (s : Int) := by
    rw [hB.1, hdx1, spTurn_x, hAx]; ring
  have hBy : (spRun TX TY s (spTurn (spRun TX TY s st))).y = st.y - (s : Int) := by
    rw [hB.2.1, hdy1, spTurn_y, hAy]; ring
  have hBd : (spRun TX TY s (spTurn (spRun TX TY s st))).dir = 3 := by
    rw [hB.2.2, hA1d]
  refine ⟨?_, ?_, ?_, ?_, ?_⟩
  · show (spRun TX TY s (spTurn (spRun TX TY s st))).x = _
    exact hBx
  · show (spRun TX TY s (spTurn (spRun TX TY s st))).y = _
    exact hBy
  · show ((spRun TX TY s (spTurn (spRun TX TY s st))).dir + 1) % 4 = 0
    rw [hBd]
  · intro px py h1 h2 h3 hb1 hb2 hb3 hb4
    subst h3
    apply spRun_to_spLayer
    show _ ∈ (spRun TX TY s st).visited
    have hj : (((st.x - px - 1).toNat : Int)) = st.x - px - 1 :=
      Int.toNat_of_nonneg (by omega)
    have hcx : st.x + (((st.x - px - 1).toNat : Int) + 1) * dxv st.dir = px := by
      rw [hdx0, hj]; ring
    have hcy : st.y + (((st.x - px - 1).toNat : Int) + 1) * dyv st.dir = st.y := by
      rw [hdy0]; ring
    have hmem := spRun_covers TX TY s st (st.x - px - 1).toNat (by omega)
      (by rw [hcx]; exact hb1) (by rw [hcx]; exact hb2)
      (by rw [hcy]; exact hb3) (by rw [hcy]; exact hb4)
    have hpair : (px, st.y)
        = (st.x + (((st.x - px - 1).toNat : Int) + 1) * dxv st.dir,
           st.y + (((st.x - px - 1).toNat : Int) + 1) * dyv st.dir) := by
      rw [hcx, hcy]
    rw [hpair]
    exact hmem
  · intro px py h1 h2 h3 hb1 hb2 hb3 hb4
    subst h1
    show _ ∈ (spRun TX TY s (spTurn (spRun TX TY s st))).visited
    have hj : (((st.y - py - 1).toNat : Int)) = st.y - py - 1 :=
      Int.toNat_of_nonneg (by omega)
    have hcx : (spTurn (spRun TX TY s st)).x
        + (((st.y - py - 1).toNat : Int) + 1) * dxv (spTurn (spRun TX TY s st)).dir
        = st.x - (s : Int) := by
      rw [hdx1, spTurn_x, hAx]; ring
    have hcy : (spTurn (spRun TX TY s st)).y
        + (((st.y - py - 1).toNat : Int) + 1) * dyv (spTurn (spRun TX TY s st)).dir
        = py := by
      rw [hdy1, spTurn_y, hAy, hj]; ring
    have hmem := spRun_covers TX TY s (spTurn (spRun TX TY s st)) (st.y - py - 1).toNat
      (by omega)
      (by rw [hcx]; exact hb1) (by rw [hcx]; exact hb2)
      (by rw [hcy]; exact hb3) (by rw [hcy]; exact hb4)
    have hpair : (st.x - (s : Int), py)
        = ((spTurn (spRun TX TY s st)).x
            + (((st.y - py - 1).toNat : Int) + 1) * dxv (spTurn (spRun TX TY s st)).dir,
           (spTurn (spRun TX TY s st)).y
            + (((st.y - py - 1).toNat : Int) + 1) * dyv (spTurn (spRun TX TY s st)).dir) := by
      rw [hcx, hcy]
    rw [hpair]
    exact hmem

theorem spLayers_visited_mono (TX TY : Nat) :
    ∀ (n s : Nat) (st : SpiralState), st.visited ⊆ (spLayers TX TY n s st).visited := by
  intro n
  induction n with
  | zero => intro s st p hp; exact hp
  | succ n ih =>
    intro s st p hp
    exact ih (s + 1) (spLayer TX TY s st) (spLayer_visited_mono TX TY s st hp)

theorem spLayers_add (TX TY : Nat) :
    ∀ (m n s : Nat) (st : SpiralState),
      spLayers TX TY (m + n) s st = spLayers TX TY n (s + m) (spLayers TX TY m s st) := by
  intro m
  induction m with
  | zero =>
    intro n s st
    simp [spLayers]
  | succ m ih =>
    intro n s st
    have h1 : m + 1 + n = (m + n) + 1 := by omega
    rw [h1]
    show spLayers TX TY (m + n) (s + 1) (spLayer TX TY s st) = _
    rw [ih]
    have h2 : s + 1 + m = s + (m + 1) := by omega
    rw [h2]
    rfl

set_option maxHeartbeats 3200000 in
theorem spiral_coverage (TX TY : Nat) :
    ∀ k : Nat,
      (spLayers TX TY (2 * k + 1) 1 (spInit TX TY)).x
          = ((TX / 2 : Nat) : Int) + (k : Int) + 1 ∧
      (spLayers TX TY (2 * k + 1) 1 (spInit TX TY)).y
          = ((TY / 2 : Nat) : Int) + (k : Int) + 1 ∧
      (spLayers TX TY (2 * k + 1) 1 (spInit TX TY)).dir = 2 ∧
      (∀ px py : Int, 0 ≤ px → px < (TX : Int) → 0 ≤ py → py < (TY : Int) →
        ((((TX / 2 : Nat) : Int) - (k : Int) ≤ px ∧
          px ≤ ((TX / 2 : Nat) : Int) + (k : Int) ∧
          ((TY / 2 : Nat) : Int) - (k : Int) ≤ py ∧
          py ≤ ((TY / 2 : Nat) : Int) + (k : Int)) ∨
         (px = ((TX / 2 : Nat) : Int) + (k : Int) + 1 ∧
          ((TY / 2 : Nat) : Int) - (k : Int) ≤ py ∧
          py ≤ ((TY / 2 : Nat) : Int) + (k : Int) + 1)) →
        (px, py) ∈ (spLayers TX TY (2 * k + 1) 1 (spInit TX TY)).visited) := by
  intro k
  induction k with
  | zero =>
    have hL := spLayer_right TX TY 1 (spInit TX TY) rfl
    have hix : (spInit TX TY).x = ((TX / 2 : Nat) : Int) := rfl
    have hiy : (spInit TX TY).y = ((TY / 2 : Nat) : Int) := rfl
    refine ⟨?_, ?_, ?_, ?_⟩
    · show (spLayer TX TY 1 (spInit TX TY)).x = _
      rw [hL.1, hix]
      push_cast
      ring
    · show (spLayer TX TY 1 (spInit TX TY)).y = _
      rw [hL.2.1, hiy]
      push_cast
      ring
    · show (spLayer TX TY 1 (spInit TX TY)).dir = 2
      exact hL.2.2.1
    · intro px py hb1 hb2 hb3 hb4 hreg
      show (px, py) ∈ (spLayer TX TY 1 (spInit TX TY)).visited
      push_cast at hreg
      have hcase :
          (px = ((TX / 2 : Nat) : Int) ∧ py = ((TY / 2 : Nat) : Int)) ∨
          (px = ((TX / 2 : Nat) : Int) + 1 ∧ py = ((TY / 2 : Nat) : Int)) ∨
          (px = ((TX / 2 : Nat) : Int) + 1 ∧ py = ((TY / 2 : Nat) : Int) + 1) := by
        omega
      rcases hcase with ⟨hx, hy⟩ | ⟨hx, hy⟩ | ⟨hx, hy⟩
      · subst hx
        subst hy
        apply spLayer_visited_mono
        show _ ∈ [(((TX / 2 : Nat) : Int), ((TY / 2 : Nat) : Int))]
        exact List.mem_singleton.mpr rfl
      · subst hx
        subst hy
        refine hL.2.2.2.1 _ _ ?_ ?_ ?_ hb1 hb2 hb3 hb4
        · rw [hix]
        · rw [hix]
          push_cast
          omega
        · rw [hiy]
      · subst hx
        subst hy
        refine hL.2.2.2.2 _ _ ?_ ?_ ?_ hb1 hb2 hb3 hb4
        · rw [hix]
          push_cast
          omega
        · rw [hiy]
        · rw [hiy]
          push_cast
          omega
  | succ k ih =>
    have hsplit : 2 * (k + 1) + 1 = (2 * k + 1) + 2 := by omega
    rw [hsplit, spLayers_add]
    have hsteps : 1 + (2 * k + 1) = 2 * k + 2 := by omega
    rw [hsteps]
    obtain ⟨ihx, ihy, ihd, ihcov⟩ := ih
    generalize hA : spLayers TX TY (2 * k + 1) 1 (spInit TX TY) = A
    rw [hA] at ihx ihy ihd ihcov
    have hB := spLayer_left TX TY (2 * k + 2) A ihd
    obtain ⟨hBx, hBy, hBd, hBcov1, hBcov2⟩ := hB
    have hC := spLayer_right TX TY (2 * k + 3) (spLayer TX TY (2 * k + 2) A) hBd
    obtain ⟨hCx, hCy, hCd, hCcov1, hCcov2⟩ := hC
    have hmonoBC : (spLayer TX TY (2 * k + 2) A).visited ⊆
        (spLayer TX TY (2 * k + 3) (spLayer TX TY (2 * k + 2) A)).visited :=
      spLayer_visited_mono TX TY (2 * k + 3) _
    have hmonoAC : A.visited ⊆
        (spLayer TX TY (2 * k + 3) (spLayer TX TY (2 * k + 2) A)).visited :=
      fun p hp => hmonoBC (spLayer_visited_mono TX TY (2 * k + 2) A hp)
    refine ⟨?_, ?_, ?_, ?_⟩
    · show (spLayer TX TY (2 * k + 3) (spLayer TX TY (2 * k + 2) A)).x = _
      rw [hCx, hBx, ihx]
      push_cast
      ring
    · show (spLayer TX TY (2 * k + 3) (spLayer TX TY (2 * k + 2) A)).y = _
      rw [hCy, hBy, ihy]
      push_cast
      ring
    · show (spLayer TX TY (2 * k + 3) (spLayer TX TY (2 * k + 2) A)).dir = 2
      exact hCd
    · intro px py hb1 hb2 hb3 hb4 hreg
      show (px, py) ∈ (spLayer TX TY (2 * k + 3) (spLayer TX TY (2 * k + 2) A)).visited
      push_cast at hreg
      by_cases hxL : px = ((TX / 2 : Nat) : Int) - (k : Int) - 1
      · by_cases hyB : py = ((TY / 2 : Nat) : Int) + (k : Int) + 1
        · exact hmonoBC (hBcov1 px py (by rw [ihx]; push_cast; omega)
            (by rw [ihx]; push_cast; omega) (by rw [ihy]; push_cast; omega)
            hb1 hb2 hb3 hb4)
        · exact hmonoBC (hBcov2 px py (by rw [ihx]; push_cast; omega)
            (by rw [ihy]; push_cast; omega) (by rw [ihy]; push_cast; omega)
            hb1 hb2 hb3 hb4)
      · by_cases hxR2 : px = ((TX / 2 : Nat) : Int) + (k : Int) + 2
        · by_cases hyT : py = ((TY / 2 : Nat) : Int) - (k : Int) - 1
          · exact hCcov1 px py (by rw [hBx, ihx]; push_cast; omega)
              (by rw [hBx, ihx]; push_cast; omega) (by rw [hBy, ihy]; push_cast; omega)
              hb1 hb2 hb3 hb4
          · exact hCcov2 px py (by rw [hBx, ihx]; push_cast; omega)
              (by rw [hBy, ihy]; push_cast; omega) (by rw [hBy, ihy]; push_cast; omega)
              hb1 hb2 hb3 hb4
        · by_cases hyT : py = ((TY / 2 : Nat) : Int) - (k : Int) - 1
          · exact hCcov1 px py (by rw [hBx, ihx]; push_cast; omega)
              (by rw [hBx, ihx]; push_cast; omega) (by rw [hBy, ihy]; push_cast; omega)
              hb1 hb2 hb3 hb4
          · by_cases hyB : py = ((TY / 2 : Nat) : Int) + (k : Int) + 1
            · by_cases hxR1 : px = ((TX / 2 : Nat) : Int) + (k : Int) + 1
              · exact hmonoAC (ihcov px py hb1 hb2 hb3 hb4 (by push_cast; omega))
              · exact hmonoBC (hBcov1 px py (by rw [ihx]; push_cast; omega)
                  (by rw [ihx]; push_cast; omega) (by rw [ihy]; push_cast; omega)
                  hb1 hb2 hb3 hb4)
            · exact hmonoAC (ihcov px py hb1 hb2 hb3 hb4 (by push_cast; omega))

theorem spMove_inv (TX TY : Nat) (st : SpiralState) (h : SpInv TX TY st) :
    SpInv TX TY (spMove TX TY st) := by
  obtain ⟨hnd, hbd, hres⟩ := h
  unfold SpInv spMove
  dsimp only
  split
  · rename_i hcond
    obtain ⟨hc1, hc2, hc3, hc4, hc5⟩ := hcond
    refine ⟨List.nodup_cons.mpr ⟨hc5, hnd⟩, ?_, ?_⟩
    · intro p hp
      rcases List.mem_cons.mp hp with hpe | hp2
      · rw [hpe]
        exact ⟨hc1, hc2, hc3, hc4⟩
      · exact hbd p hp2
    · rw [List.reverse_cons, List.map_append, ← hres]
      rfl
  · exact ⟨hnd, hbd, hres⟩

theorem spRun_inv (TX TY : Nat) :
    ∀ (n : Nat) (st : SpiralState), SpInv TX TY st → SpInv TX TY (spRun TX TY n st) := by
  intro n
  induction n with
  | zero => intro st h; exact h
  | succ n ih => intro st h; exact ih (spMove TX TY st) (spMove_inv TX TY st h)

theorem spLayer_inv (TX TY s : Nat) (st : SpiralState) (h : SpInv TX TY st) :
    SpInv TX TY (spLayer TX TY s st) := by
  show SpInv TX TY (spTurn (spRun TX TY s (spTurn (spRun TX TY s st))))
  have h1 : SpInv TX TY (spRun TX TY s st) := spRun_inv TX TY s st h
  have h2 : SpInv TX TY (spTurn (spRun TX TY s st)) := h1
  have h3 := spRun_inv TX TY s (spTurn (spRun TX TY s st)) h2
  exact h3

theorem spLayers_inv (TX TY : Nat) :
    ∀ (n s : Nat) (st : SpiralState), SpInv TX TY st → SpInv TX TY (spLayers TX TY n s st) := by
  intro n
  induction n with
  | zero => intro s st h; exact h
  | succ n ih =>
    intro s st h
    exact ih (s + 1) (spLayer TX TY s st) (spLayer_inv TX TY s st h)

theorem spLoop_inv (TX TY : Nat) :
    ∀ (fuel steps : Nat) (st : SpiralState),
      SpInv TX TY st → SpInv TX TY (spLoop TX TY fuel steps st) := by
  intro fuel
  induction fuel with
  | zero => intro steps st h; exact h
  | succ n ih =>
    intro steps st h
    by_cases hg : st.result.length < TX * TY
    · have heq : spLoop TX TY (n + 1) steps st
          = spLoop TX TY n (steps + 1) (spLayer TX TY steps st) := by
        show (if st.result.length < TX * TY then
          spLoop TX TY n (steps + 1) (spLayer TX TY steps st) else st) = _
        rw [if_pos hg]
      rw [heq]
      exact ih (steps + 1) (spLayer TX TY steps st) (spLayer_inv TX TY steps st h)
    · have heq : spLoop TX TY (n + 1) steps st = st := by
        show (if st.result.length < TX * TY then
          spLoop TX TY n (steps + 1) (spLayer TX TY steps st) else st) = _
        rw [if_neg hg]
      rw [heq]
      exact h

theorem spInit_inv (TX TY : Nat) (hx : 1 ≤ TX) (hy : 1 ≤ TY) :
    SpInv TX TY (spInit TX TY) := by
  refine ⟨List.nodup_singleton _, ?_, ?_⟩
  · intro p hp
    have hp2 : p = (((TX / 2 : Nat) : Int), ((TY / 2 : Nat) : Int)) :=
      List.mem_singleton.mp hp
    rw [hp2]
    refine ⟨Int.natCast_nonneg _, ?_, Int.natCast_nonneg _, ?_⟩
    · show ((TX / 2 : Nat) : Int) < (TX : Int)
      omega
    · show ((TY / 2 : Nat) : Int) < (TY : Int)
      omega
  · show [TX / 2 + TY / 2 * TX] = _
    have hc : (((TX / 2 : Nat) : Int) + ((TY / 2 : Nat) : Int) * (TX : Int)).toNat
        = TX / 2 + TY / 2 * TX := by
      have : ((TX / 2 : Nat) : Int) + ((TY / 2 : Nat) : Int) * (TX : Int)
          = ((TX / 2 + TY / 2 * TX : Nat) : Int) := by push_cast; ring
      rw [this]
      exact Int.toNat_natCast _
    show _ = [(((TX / 2 : Nat) : Int) + ((TY / 2 : Nat) : Int) * (TX : Int)).toNat]
    rw [hc]

theorem toNat_lt_of (q : Int) (N : Nat) (h0 : 0 ≤ q) (h : q < (N : Int)) :
    q.toNat < N := by omega

theorem enc_lt (TX TY : Nat) (p : Int × Int)
    (h1 : 0 ≤ p.1) (h2 : p.1 < (TX : Int)) (h3 : 0 ≤ p.2) (h4 : p.2 < (TY : Int)) :
    (p.1 + p.2 * (TX : Int)).toNat < TX * TY := by
  apply toNat_lt_of
  · exact add_nonneg h1 (mul_nonneg h3 (Int.natCast_nonneg TX))
  · have hstep : p.1 + p.2 * (TX : Int) < (p.2 + 1) * (TX : Int) := by
      have hexp : (p.2 + 1) * (TX : Int) = p.2 * TX + TX := by ring
      rw [hexp]
      linarith
    have hle : (p.2 + 1) * (TX : Int) ≤ (TY : Int) * (TX : Int) :=
      mul_le_mul_of_nonneg_right (by omega) (Int.natCast_nonneg TX)
    have hfin : ((TX * TY : Nat) : Int) = (TY : Int) * (TX : Int) := by push_cast; ring
    rw [hfin]
    exact lt_of_lt_of_le hstep hle

theorem enc_inj (TX TY : Nat) (p q : Int × Int)
    (hp1 : 0 ≤ p.1) (hp2 : p.1 < (TX : Int)) (hp3 : 0 ≤ p.2)
    (hq1 : 0 ≤ q.1) (hq2 : q.1 < (TX : Int)) (hq3 : 0 ≤ q.2)
    (heq : (p.1 + p.2 * (TX : Int)).toNat = (q.1 + q.2 * (TX : Int)).toNat) : p = q := by
  have hTX0 : (0 : Int) ≤ TX := Int.natCast_nonneg TX
  have hTXpos : (0 : Int) < TX := lt_of_le_of_lt hp1 hp2
  have hp0 : 0 ≤ p.1 + p.2 * (TX : Int) := add_nonneg hp1 (mul_nonneg hp3 hTX0)
  have hq0 : 0 ≤ q.1 + q.2 * (TX : Int) := add_nonneg hq1 (mul_nonneg hq3 hTX0)
  have heq2 : p.1 + p.2 * (TX : Int) = q.1 + q.2 * (TX : Int) := by
    rw [← Int.toNat_of_nonneg hp0, ← Int.toNat_of_nonneg hq0, heq]
  have hxeq : p.1 = q.1 := by
    have e1 : (p.1 + p.2 * (TX : Int)) % TX = p.1 := by
      rw [Int.add_mul_emod_self]
      exact Int.emod_eq_of_lt hp1 hp2
    have e2 : (q.1 + q.2 * (TX : Int)) % TX = q.1 := by
      rw [Int.add_mul_emod_self]
      exact Int.emod_eq_of_lt hq1 hq2
    rw [← e1, ← e2, heq2]
  have hyeq : p.2 = q.2 := by
    have hcancel : p.1 + p.2 * (TX : Int) = p.1 + q.2 * (TX : Int) := by
      rw [heq2, hxeq]
    have h2 : p.2 * (TX : Int) = q.2 * (TX : Int) := by omega
    exact mul_right_cancel₀ (ne_of_gt hTXpos) h2
  exact Prod.ext hxeq hyeq

theorem flatMap_map_length {α β γ : Type} (ys : List β) (f : α → β → γ) :
    ∀ xs : List α, (xs.flatMap fun i => ys.map (f i)).length = xs.length * ys.length := by
  intro xs
  induction xs with
  | nil => simp
  | cons x rest ih =>
    rw [List.flatMap_cons, List.length_append, List.length_map, ih, List.length_cons]
    ring

theorem nodup_flatMap_of {α β γ : Type} (ys : List β) (f : α → β → γ) (hys : ys.Nodup) :
    ∀ xs : List α, xs.Nodup →
      (∀ a1 ∈ xs, ∀ a2 ∈ xs, ∀ b1 ∈ ys, ∀ b2 ∈ ys,
        f a1 b1 = f a2 b2 → a1 = a2 ∧ b1 = b2) →
      (xs.flatMap fun i => ys.map (f i)).Nodup := by
  intro xs
  induction xs with
  | nil => intro _ _; simp
  | cons x rest ih =>
    intro hnd hinj
    rw [List.flatMap_cons]
    have hx_notin : x ∉ rest := (List.nodup_cons.mp hnd).1
    have hrest_nd : rest.Nodup := (List.nodup_cons.mp hnd).2
    apply List.Nodup.append
    · apply List.Nodup.map_on ?_ hys
      intro b1 hb1 b2 hb2 hfe
      exact (hinj x (List.mem_cons_self _ _) x (List.mem_cons_self _ _)
        b1 hb1 b2 hb2 hfe).2
    · exact ih hrest_nd (fun a1 ha1 a2 ha2 =>
        hinj a1 (List.mem_cons_of_mem _ ha1) a2 (List.mem_cons_of_mem _ ha2))
    · intro z hz1 hz2
      obtain ⟨b1, hb1, hzb⟩ := List.mem_map.mp hz1
      obtain ⟨a2, ha2, hz2b⟩ := List.mem_flatMap.mp hz2
      obtain ⟨b2, hb2, heq2⟩ := List.mem_map.mp hz2b
      have heq3 : f x b1 = f a2 b2 := hzb.trans heq2.symm
      have hres := hinj x (List.mem_cons_self _ _) a2 (List.mem_cons_of_mem _ ha2)
        b1 hb1 b2 hb2 heq3
      exact hx_notin (by rw [hres.1]; exact ha2)

theorem gridList_nodup (TX TY : Nat) : (gridList TX TY).Nodup := by
  unfold gridList
  apply nodup_flatMap_of (List.range TY) _ (List.nodup_range TY)
    (List.range TX) (List.nodup_range TX)
  intro a1 _ a2 _ b1 _ b2 _ hfe
  have h1 := congrArg Prod.fst hfe
  have h2 := congrArg Prod.snd hfe
  simp only [Int.natCast_inj] at h1 h2
  exact ⟨h1, h2⟩

theorem gridList_length (TX TY : Nat) : (gridList TX TY).length = TX * TY := by
  unfold gridList
  rw [flatMap_map_length, List.length_range, List.length_range]

theorem spLoop_eq_layers (TX TY : Nat) :
    ∀ (fuel steps : Nat) (st : SpiralState),
      (spLoop TX TY fuel steps st).result.length < TX * TY →
      spLoop TX TY fuel steps st = spLayers TX TY fuel steps st := by
  intro fuel
  induction fuel with
  | zero => intro steps st _; rfl
  | succ n ih =>
    intro steps st h
    by_cases hg : st.result.length < TX * TY
    · have hunf : spLoop TX TY (n + 1) steps st
          = spLoop TX TY n (steps + 1) (spLayer TX TY steps st) := by
        show (if st.result.length < TX * TY then
          spLoop TX TY n (steps + 1) (spLayer TX TY steps st) else st) = _
        rw [if_pos hg]
      rw [hunf] at h ⊢
      rw [ih _ _ h]
      rfl
    · have hunf : spLoop TX TY (n + 1) steps st = st := by
        show (if st.result.length < TX * TY then
          spLoop TX TY n (steps + 1) (spLayer TX TY steps st) else st) = _
        rw [if_neg hg]
      rw [hunf] at h
      exact absurd h hg

theorem spLoop_stable (TX TY : Nat) :
    ∀ (fuel m steps : Nat) (st : SpiralState),
      TX * TY ≤ (spLoop TX TY fuel steps st).result.length →
      spLoop TX TY (fuel + m) steps st = spLoop TX TY fuel steps st := by
  intro fuel
  induction fuel with
  | zero =>
    intro m steps st h
    rw [Nat.zero_add]
    have h0 : TX * TY ≤ st.result.length := h
    cases m with
    | zero => rfl
    | succ m2 =>
      show (if st.result.length < TX * TY then
        spLoop TX TY m2 (steps + 1) (spLayer TX TY steps st) else st) = st
      rw [if_neg (by omega)]
  | succ n ih =>
    intro m steps st h
    have hsucc : n + 1 + m = (n + m) + 1 := by omega
    rw [hsucc]
    by_cases hg : st.result.length < TX * TY
    · have hpos : spLoop TX TY (n + 1) steps st
          = spLoop TX TY n (steps + 1) (spLayer TX TY steps st) := by
        show (if st.result.length < TX * TY then
          spLoop TX TY n (steps + 1) (spLayer TX TY steps st) else st) = _
        rw [if_pos hg]
      have h2 : TX * TY ≤ (spLoop TX TY n (steps + 1) (spLayer TX TY steps st)).result.length := by
        rw [hpos] at h
        exact h
      show (if st.result.length < TX * TY then
        spLoop TX TY (n + m) (steps + 1) (spLayer TX TY steps st) else st)
          = spLoop TX TY (n + 1) steps st
      rw [if_pos hg, ih m (steps + 1) (spLayer TX TY steps st) h2, hpos]
    · show (if st.result.length < TX * TY then
        spLoop TX TY (n + m) (steps + 1) (spLayer TX TY steps st) else st)
          = spLoop TX TY (n + 1) steps st
      rw [if_neg hg]
      have hend : spLoop TX TY (n + 1) steps st = st := by
        show (if st.result.length < TX * TY then
          spLoop TX TY n (steps + 1) (spLayer TX TY steps st) else st) = _
        rw [if_neg hg]
      rw [hend]

theorem spiral_visited_all (TX TY : Nat) (hx : 1 ≤ TX) (hy : 1 ≤ TY)
    (px py : Int) (hb1 : 0 ≤ px) (hb2 : px < (TX : Int))
    (hb3 : 0 ≤ py) (hb4 : py < (TY : Int)) :
    (px, py) ∈ (spLayers TX TY (spFuel TX TY) 1 (spInit TX TY)).visited := by
  have hK := spiral_coverage TX TY (TX + TY)
  have hdecomp : spFuel TX TY = (2 * (TX + TY) + 1) + 3 := by unfold spFuel; omega
  rw [hdecomp, spLayers_add]
  apply spLayers_visited_mono
  apply hK.2.2.2 px py hb1 hb2 hb3 hb4
  left
  refine ⟨?_, ?_, ?_, ?_⟩ <;> omega

theorem spiral_layers_full (TX TY : Nat) (hx : 1 ≤ TX) (hy : 1 ≤ TY) :
    TX * TY ≤ (spLayers TX TY (spFuel TX TY) 1 (spInit TX TY)).result.length := by
  have hinv : SpInv TX TY (spLayers TX TY (spFuel TX TY) 1 (spInit TX TY)) :=
    spLayers_inv TX TY (spFuel TX TY) 1 (spInit TX TY) (spInit_inv TX TY hx hy)
  have hsubgrid : gridList TX TY ⊆
      (spLayers TX TY (spFuel TX TY) 1 (spInit TX TY)).visited := by
    intro p hp
    unfold gridList at hp
    obtain ⟨i, hi, hp2⟩ := List.mem_flatMap.mp hp
    obtain ⟨j, hj, hpe⟩ := List.mem_map.mp hp2
    rw [← hpe]
    exact spiral_visited_all TX TY hx hy i j (Int.natCast_nonneg i)
      (by exact_mod_cast List.mem_range.mp hi) (Int.natCast_nonneg j)
      (by exact_mod_cast List.mem_range.mp hj)
  have hsp := List.subperm_of_subset (gridList_nodup TX TY) hsubgrid
  have hlen := hsp.length_le
  rw [gridList_length] at hlen
  have hres : (spLayers TX TY (spFuel TX TY) 1 (spInit TX TY)).result.length
      = (spLayers TX TY (spFuel TX TY) 1 (spInit TX TY)).visited.length := by
    rw [hinv.2.2, List.length_map, List.length_reverse]
  omega

theorem perm_range_of (l : List Nat) (n : Nat) (hnd : l.Nodup)
    (hlt : ∀ x ∈ l, x < n) (hlen : n ≤ l.length) : l.Perm (List.range n) := by
  have hsub : l ⊆ List.range n := fun x hx => List.mem_range.mpr (hlt x hx)
  have hsp : List.Subperm l (List.range n) := List.subperm_of_subset hnd hsub
  obtain ⟨l2, hperm, hsl⟩ := hsp
  have hlen2 : l2.length = (List.range n).length := by
    have h1 : l2.length = l.length := hperm.length_eq
    have h2 : l2.length ≤ (List.range n).length := hsl.length_le
    rw [List.length_range] at h2 ⊢
    omega
  have heq : l2 = List.range n := hsl.eq_of_length hlen2
  rw [← heq]
  exact hperm.symm

theorem raster_perm (TX TY : Nat) (xs ys : List Nat)
    (hxs : xs.Perm (List.range TX)) (hys : ys.Perm (List.range TY)) :
    (xs.flatMap fun i => ys.map fun j => j * TX + i).Perm (List.range (TX * TY)) := by
  have hxsnd : xs.Nodup := hxs.nodup_iff.mpr (List.nodup_range TX)
  have hysnd : ys.Nodup := hys.nodup_iff.mpr (List.nodup_range TY)
  have hxmem : ∀ x ∈ xs, x < TX := fun x hx2 => List.mem_range.mp (hxs.subset hx2)
  have hymem : ∀ y ∈ ys, y < TY := fun y hy2 => List.mem_range.mp (hys.subset hy2)
  apply perm_range_of
  · apply nodup_flatMap_of ys _ hysnd xs hxsnd
    intro a1 ha1 a2 ha2 b1 hb1 b2 hb2 hfe
    have ha1x := hxmem a1 ha1
    have ha2x := hxmem a2 ha2
    have haeq : a1 = a2 := by
      have e1 : (b1 * TX + a1) % TX = a1 := by
        rw [Nat.mul_comm b1 TX, Nat.mul_add_mod]
        exact Nat.mod_eq_of_lt ha1x
      have e2 : (b2 * TX + a2) % TX = a2 := by
        rw [Nat.mul_comm b2 TX, Nat.mul_add_mod]
        exact Nat.mod_eq_of_lt ha2x
      rw [← e1, ← e2, hfe]
    refine ⟨haeq, ?_⟩
    have hbeq : b1 * TX = b2 * TX := by omega
    have hTXpos : 0 < TX := by omega
    exact Nat.eq_of_mul_eq_mul_right hTXpos hbeq
  · intro z hz
    obtain ⟨i, hi, hz2⟩ := List.mem_flatMap.mp hz
    obtain ⟨j, hj, hze⟩ := List.mem_map.mp hz2
    rw [← hze]
    have hi2 := hxmem i hi
    have hj2 := hymem j hj
    calc j * TX + i < j * TX + TX := by omega
      _ = (j + 1) * TX := by ring
      _ ≤ TY * TX := Nat.mul_le_mul_right TX (by omega)
      _ = TX * TY := Nat.mul_comm TY TX
  · rw [flatMap_map_length, hxs.length_eq, hys.length_eq,
      List.length_range, List.length_range]

/-- Claim C8: for every grid with at least one tile, the ordering
operation terminates and yields a permutation of the tile indices.  The
spiral construction loop has emitted all TILES_X * TILES_Y indices by
the time its guard goes false (extra fuel leaves the result unchanged,
which is the source's unbounded while loop terminating), and each of
the four directional raster orders is a permutation as well. -/
theorem order_is_permutation (TX TY : Nat) (hx : 1 ≤ TX) (hy : 1 ≤ TY) :
    (getSpiralIndicesOutward TX TY).Perm (List.range (TX * TY)) ∧
    (∀ m, (spLoop TX TY (spFuel TX TY + m) 1 (spInit TX TY)).result
        = getSpiralIndicesOutward TX TY) ∧
    (orderTL TX TY).Perm (List.range (TX * TY)) ∧
    (orderBL TX TY).Perm (List.range (TX * TY)) ∧
    (orderTR TX TY).Perm (List.range (TX * TY)) ∧
    (orderBR TX TY).Perm (List.range (TX * TY)) := by
  have hinv : SpInv TX TY (spLoop TX TY (spFuel TX TY) 1 (spInit TX TY)) :=
    spLoop_inv TX TY (spFuel TX TY) 1 (spInit TX TY) (spInit_inv TX TY hx hy)
  have hfull : TX * TY ≤ (spLoop TX TY (spFuel TX TY) 1 (spInit TX TY)).result.length := by
    by_contra hcon
    push_neg at hcon
    have hlay := spLoop_eq_layers TX TY (spFuel TX TY) 1 (spInit TX TY) hcon
    rw [hlay] at hcon
    have := spiral_layers_full TX TY hx hy
    omega
  have hnd : (spLoop TX TY (spFuel TX TY) 1 (spInit TX TY)).result.Nodup := by
    rw [hinv.2.2]
    apply List.Nodup.map_on
    · intro p hp q hq heq
      have hpb := hinv.2.1 p (List.mem_reverse.mp hp)
      have hqb := hinv.2.1 q (List.mem_reverse.mp hq)
      exact enc_inj TX TY p q hpb.1 hpb.2.1 hpb.2.2.1 hqb.1 hqb.2.1 hqb.2.2.1 heq
    · exact List.nodup_reverse.mpr hinv.1
  have hbnd : ∀ x ∈ (spLoop TX TY (spFuel TX TY) 1 (spInit TX TY)).result, x < TX * TY := by
    intro x hxm
    rw [hinv.2.2] at hxm
    obtain ⟨p, hp, hpe⟩ := List.mem_map.mp hxm
    rw [← hpe]
    have hpb := hinv.2.1 p (List.mem_reverse.mp hp)
    exact enc_lt TX TY p hpb.1 hpb.2.1 hpb.2.2.1 hpb.2.2.2
  refine ⟨perm_range_of _ _ hnd hbnd hfull, ?_, ?_, ?_, ?_, ?_⟩
  · intro m
    exact congrArg SpiralState.result
      (spLoop_stable TX TY (spFuel TX TY) m 1 (spInit TX TY) hfull)
  · exact raster_perm TX TY _ _ (List.Perm.refl _) (List.Perm.refl _)
  · exact raster_perm TX TY _ _ (List.Perm.refl _) (List.reverse_perm _)
  · exact raster_perm TX TY _ _ (List.reverse_perm _) (List.Perm.refl _)
  · exact raster_perm TX TY _ _ (List.reverse_perm _) (List.reverse_perm _)

/-- Claim C8, instantiated on a 2 x 2 grid with five units of extra
fuel. -/
theorem order_is_permutation_witness :
    (getSpiralIndicesOutward 2 2).Perm (List.range (2 * 2)) ∧
    (spLoop 2 2 (spFuel 2 2 + 5) 1 (spInit 2 2)).result = getSpiralIndicesOutward 2 2 ∧
    (orderTL 2 2).Perm (List.range (2 * 2)) ∧
    (orderBL 2 2).Perm (List.range (2 * 2)) ∧
    (orderTR 2 2).Perm (List.range (2 * 2)) ∧
    (orderBR 2 2).Perm (List.range (2 * 2)) := by
  obtain ⟨h1, h2, h3, h4, h5, h6⟩ := order_is_permutation 2 2 (by decide) (by decide)
  exact ⟨h1, h2 5, h3, h4, h5, h6⟩

end FractalViewer
